import Mathlib

/-!
Verification of the nutrea tree-flattening engine against its specification.

The repository ships the engine's tests, README, CHANGELOG and example
routes; the engine itself (the `useTree` hook) is modelled here from the
specification and those documents.  Machine integers do not occur; node
identities are strings, levels are natural numbers, and the caller-owned
expansion state is an association list with unique keys (a JS object).
-/

set_option autoImplicit false

namespace Nutrea

/-- Modelled from the spec: a caller data node (§3).  The default accessors
read an `id` field, a `name` field and an optional `children` field, exactly
the shape used by the repository's tests (`TreeNode` in
`tests/use_tree.test.ts`).  `children` is optional because the engine must
distinguish an absent list from a present-but-empty one for `hasChildren`. -/
inductive Node : Type where
  | mk (id : String) (name : String) (children : Option (List Node)) : Node

/-- Default identity accessor: the `id` field. -/
def Node.id : Node → String
  | .mk i _ _ => i

/-- The `name` field, consulted by the default search matcher. -/
def Node.name : Node → String
  | .mk _ nm _ => nm

/-- Default children accessor: the optional `children` field. -/
def getChildren : Node → Option (List Node)
  | .mk _ _ cs => cs

/-- The accessor-resolved children list: an absent list resolves to `[]`. -/
def resolvedChildren (n : Node) : List Node :=
  (getChildren n).getD []

/-- Modelled from the spec: the caller-owned expansion state, a JS object
mapping node ids to booleans (§3).  Keys are unique in a JS object; the
engine only reads it through `lookupExp`. -/
def ExpMap : Type := List (String × Bool)

/-- Lookup of an id in the expansion map (JS property read). -/
def lookupExp : List (String × Bool) → String → Option Bool
  | [], _ => none
  | (k, v) :: rest, i => if k = i then some v else lookupExp rest i

/-- JS object spread update `\x7b...m, [i]: v\x7d`: overwrite the entry for `i`,
keep every other entry, append if absent. -/
def setExp : List (String × Bool) → String → Bool → List (String × Bool)
  | [], i, v => [(i, v)]
  | (k, w) :: rest, i, v =>
      if k = i then (i, v) :: rest else (k, w) :: setExp rest i v

/-- Modelled from the spec: whether a node is expanded (§4.3).  With a map
supplied, expanded iff the map's entry for its id is `true` (absent defaults
to collapsed); with the map omitted, static always-expanded mode treats
every node with children as expanded. -/
def isExpandedIn (es : Option (List (String × Bool))) (n : Node) : Bool :=
  match es with
  | none => !(resolvedChildren n).isEmpty
  | some m => (lookupExp m n.id).getD false

/-- The decorated output unit (§3 VisibleNode), restricted to the fields the
engine itself computes: id, name, positional metadata, `hasChildren` and
`isExpanded`.  The mutation handles are modelled separately as functions. -/
structure Entry where
  id : String
  name : String
  level : Nat
  parentId : Option String
  hasChildren : Bool
  isExpanded : Bool
deriving DecidableEq

/-- Modelled from the spec: the decoration of one raw node in default mode
(§3, §4.4): `hasChildren` is true unless the accessor-resolved children list
is absent or empty, `isExpanded` reflects the expansion-map lookup (or the
static-mode policy). -/
def mkEntry (es : Option (List (String × Bool))) (n : Node) (lvl : Nat)
    (pid : Option String) : Entry :=
  { id := n.id, name := n.name, level := lvl, parentId := pid,
    hasChildren := !(resolvedChildren n).isEmpty,
    isExpanded := isExpandedIn es n }

mutual
/-- Modelled from the spec: the default-mode pre-order depth-first walk
(§4.3).  A node is always emitted; its children are visited iff the node is
expanded.  Each child is emitted at the parent's level plus one with the
parent's id as `parentId`. -/
def flattenNode (es : Option (List (String × Bool))) (n : Node) (lvl : Nat)
    (pid : Option String) : List Entry :=
  match n with
  | .mk i nm none => [mkEntry es (.mk i nm none) lvl pid]
  | .mk i nm (some l) =>
      mkEntry es (.mk i nm (some l)) lvl pid ::
        (if isExpandedIn es (.mk i nm (some l)) then
          flattenList es l (lvl + 1) (some i)
        else [])

/-- Pre-order walk of a sibling list, left to right. -/
def flattenList (es : Option (List (String × Bool))) (ns : List Node)
    (lvl : Nat) (pid : Option String) : List Entry :=
  match ns with
  | [] => []
  | c :: rest => flattenNode es c lvl pid ++ flattenList es rest lvl pid
end

/-- Whether the first character list is a prefix of the second. -/
def prefixMatch : List Char → List Char → Bool
  | [], _ => true
  | _ :: _, [] => false
  | a :: t, b :: s => a = b && prefixMatch t s

/-- Whether the first character list occurs contiguously in the second. -/
def infixMatch (t : List Char) : List Char → Bool
  | [] => t.isEmpty
  | b :: s => prefixMatch t (b :: s) || infixMatch t s

/-- Modelled from the spec: the default search matcher (§4.2, §6
`searchMatch`), a substring match of the term against the node's `name`
field, as in the repository's test `Using filter reduces the list`. -/
def searchMatches (term : String) (n : Node) : Bool :=
  infixMatch term.toList n.name.toList

mutual
/-- Whether a node or any of its descendants matches the search term. -/
def anyMatch (term : String) (n : Node) : Bool :=
  match n with
  | .mk i nm none => searchMatches term (.mk i nm none)
  | .mk i nm (some l) =>
      searchMatches term (.mk i nm (some l)) || anyMatchList term l

/-- Whether any node in a forest matches the search term. -/
def anyMatchList (term : String) (ns : List Node) : Bool :=
  match ns with
  | [] => false
  | c :: rest => anyMatch term c || anyMatchList term rest
end

/-- Modelled from the spec: the decoration of one raw node in search mode
(§4.2): ancestors of a match are force-included with `isExpanded` reported
as `true`, so the emitted `isExpanded` is whether some descendant in the
node's children matches. -/
def mkSearchEntry (term : String) (n : Node) (lvl : Nat)
    (pid : Option String) : Entry :=
  { id := n.id, name := n.name, level := lvl, parentId := pid,
    hasChildren := !(resolvedChildren n).isEmpty,
    isExpanded := anyMatchList term (resolvedChildren n) }

mutual
/-- Modelled from the spec: search-mode traversal (§4.2).  Expansion state
is bypassed; a node is emitted iff it matches the term or some descendant
does, and subtrees containing no match are pruned. -/
def searchFlattenNode (term : String) (n : Node) (lvl : Nat)
    (pid : Option String) : List Entry :=
  match n with
  | .mk i nm none =>
      if anyMatch term (.mk i nm none) then
        [mkSearchEntry term (.mk i nm none) lvl pid]
      else []
  | .mk i nm (some l) =>
      if anyMatch term (.mk i nm (some l)) then
        mkSearchEntry term (.mk i nm (some l)) lvl pid ::
          searchFlattenList term l (lvl + 1) (some i)
      else []

/-- Search-mode walk of a sibling list, left to right. -/
def searchFlattenList (term : String) (ns : List Node) (lvl : Nat)
    (pid : Option String) : List Entry :=
  match ns with
  | [] => []
  | c :: rest =>
      searchFlattenNode term c lvl pid ++ searchFlattenList term rest lvl pid
end

/-- Modelled from the spec: the recognized engine options (§6) that affect
the visible list, plus the presence flags of the two optional callbacks
(whose values the build never consults).  Defaults per §6: `showRoot` true,
`searchTerm` empty, everything else omitted. -/
structure TreeOptions where
  expandedState : Option (List (String × Bool)) := none
  showRoot : Bool := true
  searchTerm : String := ""
  hasOnSelection : Bool := false
  hasOnExpandedStateChange : Bool := false

/-- Modelled from the spec: the traversal engine's build (§4.3), returning
the ordered visible list.  A non-empty `searchTerm` switches to search mode
(§4.2); `showRoot: false` omits the root but still walks its subtree with
its children as the first-level entries — per the README those start at
level 0 — while `parentId` of the root's direct children is still the
root's id. -/
def buildVisibleList (opts : TreeOptions) (root : Node) : List Entry :=
  if opts.searchTerm ≠ "" then
    if opts.showRoot then
      searchFlattenNode opts.searchTerm root 0 none
    else
      searchFlattenList opts.searchTerm (resolvedChildren root) 0
        (some root.id)
  else
    if opts.showRoot then
      flattenNode opts.expandedState root 0 none
    else
      flattenList opts.expandedState (resolvedChildren root) 0
        (some root.id)

/-- The error thrown when a node method whose callback prop was omitted is
invoked; `missingProp` names the omitted configuration option. -/
structure MissingCallbackError where
  missingProp : String
deriving DecidableEq

/-- Modelled from the spec: the `select()` handle bound to each visible node
(§4.4).  With `onSelection` supplied it invokes the callback with the
underlying raw node (the `ok` payload); with it omitted it fails with a
`MissingCallbackError` naming the omitted option. -/
def select (hasOnSelection : Bool) (n : Node) :
    Except MissingCallbackError Node :=
  if hasOnSelection then .ok n else .error ⟨"onSelection"⟩

/-- Modelled from the spec: the `toggleExpanded()` handle bound to each
visible node (§4.4) together with the behavior shown by the test
`Expanded state change callback not called when state is not passed`.
The result encodes what the call does: `ok (some m)` means the
`onExpandedStateChange` callback is invoked with the complete new map `m`;
`ok none` means the call returns without invoking it (static always-expanded
mode); `error` means a `MissingCallbackError` is thrown.  With the callback
omitted the call fails naming the option; otherwise, with an expansion map
present, the new map is the current one with this node's entry flipped,
an absent entry defaulting to `false` before the flip. -/
def toggleExpanded (es : Option (List (String × Bool)))
    (hasOnExpandedStateChange : Bool) (i : String) :
    Except MissingCallbackError (Option (List (String × Bool))) :=
  if hasOnExpandedStateChange then
    match es with
    | none => .ok none
    | some m => .ok (some (setExp m i (!(lookupExp m i).getD false)))
  else
    .error ⟨"onExpandedStateChange"⟩

/-- An occurrence of a node during the walk: the node itself, the ids of
its ancestors within the walked region (nearest first), its level and its
`parentId`.  This is the specification-side annotation the engine's output
is compared against. -/
structure Occ where
  node : Node
  ancs : List String
  level : Nat
  parentId : Option String

/-- Whether one ancestor id counts as expanded for the inclusion criterion:
with a map supplied, its entry must be `true`; in static always-expanded
mode every ancestor counts as expanded. -/
def ancExpanded (es : Option (List (String × Bool))) (i : String) : Bool :=
  match es with
  | none => true
  | some m => (lookupExp m i).getD false

/-- Whether every ancestor id of an occurrence counts as expanded. -/
def ancSatisfied (es : Option (List (String × Bool)))
    (ancs : List String) : Bool :=
  ancs.all (ancExpanded es)

mutual
/-- All occurrences of a subtree in pre-order, each annotated with its
ancestor ids (nearest first), level and parent id. -/
def occsNode (n : Node) (anc : List String) (lvl : Nat)
    (pid : Option String) : List Occ :=
  match n with
  | .mk i nm none => [⟨.mk i nm none, anc, lvl, pid⟩]
  | .mk i nm (some l) =>
      ⟨.mk i nm (some l), anc, lvl, pid⟩ ::
        occsList l (i :: anc) (lvl + 1) (some i)

/-- All occurrences of a forest in pre-order. -/
def occsList (ns : List Node) (anc : List String) (lvl : Nat)
    (pid : Option String) : List Occ :=
  match ns with
  | [] => []
  | c :: rest => occsNode c anc lvl pid ++ occsList rest anc lvl pid
end

/-- Shift an emitted entry one level deeper, leaving every other field
unchanged. -/
def incLevel (e : Entry) : Entry :=
  { e with level := e.level + 1 }

mutual
/-- Every node of a subtree, in pre-order. -/
def nodesOf (n : Node) : List Node :=
  match n with
  | .mk i nm none => [.mk i nm none]
  | .mk i nm (some l) => .mk i nm (some l) :: nodesOfList l

/-- Every node of a forest, in pre-order. -/
def nodesOfList (ns : List Node) : List Node :=
  match ns with
  | [] => []
  | c :: rest => nodesOf c ++ nodesOfList rest
end

/-- The ids of every node of the tree, in pre-order.  The data-model
invariant (§3) requires these to be pairwise distinct. -/
def allIds (n : Node) : List String :=
  (nodesOf n).map Node.id

/-- The expansion map that sends every parent id (every node with a
nonempty resolved children list) to `true` and has no other entries. -/
def parentsTrueMap (n : Node) : List (String × Bool) :=
  (nodesOf n).filterMap fun m =>
    if (resolvedChildren m).isEmpty then none else some (m.id, true)

/-- Lookup of a parent id in the children cache. -/
def lookupCache : List (String × List Node) → String → Option (List Node)
  | [], _ => none
  | (k, v) :: rest, i => if k = i then some v else lookupCache rest i

mutual
/-- Modelled from the spec: the cache-consultation trace of one flattening
pass (§4.1, §4.3).  The walk visits the same nodes as the flattening: every
visited node's children are resolved through the `ChildrenCache` keyed by
the node's resolved id; on a miss, `getChildren` and the `childSort`
comparator `sf` are invoked (the visited id is appended to the invocation
log) and the sorted list is stored; on a hit neither is invoked.  Children
are walked iff the node is expanded, or unconditionally in search mode.
Returns the cache after the pass and the ids for which the accessor and
comparator were invoked. -/
def cacheWalkNode (sf : List Node → List Node)
    (es : Option (List (String × Bool))) (term : String) :
    Node → List (String × List Node) →
      List (String × List Node) × List String
  | .mk i _ none, c =>
      (match lookupCache c i with
       | some _ => (c, [])
       | none => ((i, sf []) :: c, [i]))
  | .mk i nm (some l), c =>
      let step : List (String × List Node) × List String :=
        match lookupCache c i with
        | some _ => (c, [])
        | none => ((i, sf l) :: c, [i])
      let goIn : Bool :=
        if term = "" then isExpandedIn es (.mk i nm (some l)) else true
      if goIn then
        let r := cacheWalkList sf es term l step.1
        (r.1, step.2 ++ r.2)
      else step

/-- Cache-consultation trace of a sibling list, threading the cache left to
right. -/
def cacheWalkList (sf : List Node → List Node)
    (es : Option (List (String × Bool))) (term : String) :
    List Node → List (String × List Node) →
      List (String × List Node) × List String
  | [], c => (c, [])
  | n :: rest, c =>
      let r1 := cacheWalkNode sf es term n c
      let r2 := cacheWalkList sf es term rest r1.1
      (r2.1, r1.2 ++ r2.2)
end

/-- A node whose `children` field is present but empty, for the
`hasChildren` policy. -/
def emptyFolder : Node := .mk "emptyFolder" "Empty Folder" (some [])

/-- A small tree whose root has one present-but-empty-children child. -/
def treeWithEmpty : Node := .mk "root2" "Root Two" (some [emptyFolder])

/-- The tree from the repository's tests: `root → {folder, folder2 →
{nestedItem}}`, with the names used there. -/
def nestedItem : Node := .mk "nestedItem" "Nested Item" none

/-- The childless `folder` node of the test tree. -/
def folderNode : Node := .mk "folder" "Folder" none

/-- The `folder2` node of the test tree, whose name contains "Two". -/
def folder2Node : Node := .mk "folder2" "Folder Two" (some [nestedItem])

/-- The root of the test tree. -/
def treeData : Node := .mk "root" "Root" (some [folderNode, folder2Node])

@[simp] theorem id_mk (i nm : String) (cs : Option (List Node)) :
    (Node.mk i nm cs).id = i := rfl

@[simp] theorem name_mk (i nm : String) (cs : Option (List Node)) :
    (Node.mk i nm cs).name = nm := rfl

@[simp] theorem resolvedChildren_mk (i nm : String)
    (cs : Option (List Node)) :
    resolvedChildren (.mk i nm cs) = cs.getD [] := rfl

@[simp] theorem ancSatisfied_nil (es : Option (List (String × Bool))) :
    ancSatisfied es [] = true := rfl

@[simp] theorem ancSatisfied_cons (es : Option (List (String × Bool)))
    (i : String) (a : List String) :
    ancSatisfied es (i :: a) = (ancExpanded es i && ancSatisfied es a) := by
  simp [ancSatisfied]

@[simp] theorem ancSatisfied_none (a : List String) :
    ancSatisfied none a = true := by
  simp [ancSatisfied, ancExpanded]

theorem ancSatisfied_of_suffix (es : Option (List (String × Bool)))
    (a b : List String) (h : a <:+ b) (hb : ancSatisfied es b = true) :
    ancSatisfied es a = true := by
  simp only [ancSatisfied, List.all_eq_true] at hb ⊢
  exact fun i hi => hb i (h.subset hi)

mutual
theorem occsNode_suffix (n : Node) (anc : List String) (lvl : Nat)
    (pid : Option String) :
    ∀ q ∈ occsNode n anc lvl pid, anc <:+ q.ancs :=
  match n with
  | .mk i nm none => by
      intro q hq
      simp only [occsNode, List.mem_singleton] at hq
      subst hq
      exact List.suffix_refl anc
  | .mk i nm (some l) => by
      intro q hq
      simp only [occsNode, List.mem_cons] at hq
      rcases hq with rfl | hq
      · exact List.suffix_refl anc
      · exact (List.suffix_cons i anc).trans
          (occsList_suffix l (i :: anc) (lvl + 1) (some i) q hq)

theorem occsList_suffix (ns : List Node) (anc : List String) (lvl : Nat)
    (pid : Option String) :
    ∀ q ∈ occsList ns anc lvl pid, anc <:+ q.ancs :=
  match ns with
  | [] => by intro q hq; simp [occsList] at hq
  | c :: rest => by
      intro q hq
      simp only [occsList, List.mem_append] at hq
      rcases hq with hq | hq
      · exact occsNode_suffix c anc lvl pid q hq
      · exact occsList_suffix rest anc lvl pid q hq
end

mutual
theorem flattenNode_char (es : Option (List (String × Bool))) (n : Node)
    (anc : List String) (lvl : Nat) (pid : Option String)
    (h : ancSatisfied es anc = true) :
    flattenNode es n lvl pid =
      ((occsNode n anc lvl pid).filter fun q => ancSatisfied es q.ancs).map
        fun q => mkEntry es q.node q.level q.parentId :=
  match n with
  | .mk i nm none => by
      simp [flattenNode, occsNode, List.filter_cons, h]
  | .mk i nm (some l) => by
      by_cases hexp : isExpandedIn es (.mk i nm (some l)) = true
      · have hanc : ancSatisfied es (i :: anc) = true := by
          cases es with
          | none => simp [ancExpanded]
          | some m =>
              simp only [isExpandedIn, id_mk] at hexp
              simp [ancExpanded, hexp, h]
        rw [flattenNode]
        simp only [hexp, if_true]
        rw [flattenList_char es l (i :: anc) (lvl + 1) (some i) hanc]
        simp [occsNode, List.filter_cons, h]
      · have hnil :
            ((occsList l (i :: anc) (lvl + 1) (some i)).filter fun q =>
              ancSatisfied es q.ancs) = [] := by
          cases es with
          | none =>
              have : l = [] := by
                simp only [isExpandedIn, resolvedChildren_mk,
                  Option.getD_some, Bool.not_eq_true'] at hexp
                simpa using hexp
              subst this
              simp [occsList]
          | some m =>
              apply List.filter_eq_nil_iff.mpr
              intro q hq
              have hsuf := occsList_suffix l (i :: anc) (lvl + 1)
                (some i) q hq
              intro hsat
              have hhead : ancSatisfied (some m) (i :: anc) = true :=
                ancSatisfied_of_suffix (some m) (i :: anc) q.ancs hsuf hsat
              simp only [ancSatisfied_cons, Bool.and_eq_true] at hhead
              have : ancExpanded (some m) i = true := hhead.1
              simp only [ancExpanded] at this
              simp only [isExpandedIn, id_mk] at hexp
              exact hexp this
        rw [flattenNode]
        simp only [hexp, if_false, Bool.false_eq_true]
        simp [occsNode, List.filter_cons, h, hnil]

theorem flattenList_char (es : Option (List (String × Bool)))
    (ns : List Node) (anc : List String) (lvl : Nat) (pid : Option String)
    (h : ancSatisfied es anc = true) :
    flattenList es ns lvl pid =
      ((occsList ns anc lvl pid).filter fun q => ancSatisfied es q.ancs).map
        fun q => mkEntry es q.node q.level q.parentId :=
  match ns with
  | [] => by simp [flattenList, occsList]
  | c :: rest => by
      rw [flattenList, occsList, List.filter_append, List.map_append,
        flattenNode_char es c anc lvl pid h,
        flattenList_char es rest anc lvl pid h]
end

mutual
theorem occsNode_level (n : Node) (anc : List String) (lvl : Nat)
    (pid : Option String) (h : anc.length = lvl) :
    ∀ q ∈ occsNode n anc lvl pid, q.ancs.length = q.level :=
  match n with
  | .mk i nm none => by
      intro q hq
      simp only [occsNode, List.mem_singleton] at hq
      subst hq
      simpa using h
  | .mk i nm (some l) => by
      intro q hq
      simp only [occsNode, List.mem_cons] at hq
      rcases hq with rfl | hq
      · simpa using h
      · exact occsList_level l (i :: anc) (lvl + 1) (some i)
          (by simp [h]) q hq

theorem occsList_level (ns : List Node) (anc : List String) (lvl : Nat)
    (pid : Option String) (h : anc.length = lvl) :
    ∀ q ∈ occsList ns anc lvl pid, q.ancs.length = q.level :=
  match ns with
  | [] => by intro q hq; simp [occsList] at hq
  | c :: rest => by
      intro q hq
      simp only [occsList, List.mem_append] at hq
      rcases hq with hq | hq
      · exact occsNode_level c anc lvl pid h q hq
      · exact occsList_level rest anc lvl pid h q hq
end

@[simp] theorem incLevel_mkEntry (es : Option (List (String × Bool)))
    (n : Node) (lvl : Nat) (pid : Option String) :
    incLevel (mkEntry es n lvl pid) = mkEntry es n (lvl + 1) pid := rfl

mutual
theorem flattenNode_shift (es : Option (List (String × Bool))) (n : Node)
    (lvl : Nat) (pid : Option String) :
    flattenNode es n (lvl + 1) pid = (flattenNode es n lvl pid).map incLevel :=
  match n with
  | .mk i nm none => by simp [flattenNode]
  | .mk i nm (some l) => by
      rw [flattenNode, flattenNode]
      by_cases hexp : isExpandedIn es (.mk i nm (some l)) = true
      · simp only [hexp, if_true, List.map_cons, incLevel_mkEntry]
        rw [flattenList_shift es l (lvl + 1) (some i)]
      · simp [hexp]

theorem flattenList_shift (es : Option (List (String × Bool)))
    (ns : List Node) (lvl : Nat) (pid : Option String) :
    flattenList es ns (lvl + 1) pid =
      (flattenList es ns lvl pid).map incLevel :=
  match ns with
  | [] => by simp [flattenList]
  | c :: rest => by
      rw [flattenList, flattenList, List.map_append,
        flattenNode_shift es c lvl pid, flattenList_shift es rest lvl pid]
end

mutual
theorem flattenNode_congr (es₁ es₂ : Option (List (String × Bool)))
    (n : Node) (lvl : Nat) (pid : Option String)
    (h : ∀ m ∈ nodesOf n, isExpandedIn es₁ m = isExpandedIn es₂ m) :
    flattenNode es₁ n lvl pid = flattenNode es₂ n lvl pid :=
  match n with
  | .mk i nm none => by
      have hself := h (.mk i nm none) (by simp [nodesOf])
      simp [flattenNode, mkEntry, hself]
  | .mk i nm (some l) => by
      have hself := h (.mk i nm (some l)) (by simp [nodesOf])
      have hrest : ∀ m ∈ nodesOfList l,
          isExpandedIn es₁ m = isExpandedIn es₂ m := by
        intro m hm
        exact h m (by simp [nodesOf, hm])
      rw [flattenNode, flattenNode]
      rw [flattenList_congr es₁ es₂ l (lvl + 1) (some i) hrest]
      simp [mkEntry, hself]

theorem flattenList_congr (es₁ es₂ : Option (List (String × Bool)))
    (ns : List Node) (lvl : Nat) (pid : Option String)
    (h : ∀ m ∈ nodesOfList ns, isExpandedIn es₁ m = isExpandedIn es₂ m) :
    flattenList es₁ ns lvl pid = flattenList es₂ ns lvl pid :=
  match ns with
  | [] => by simp [flattenList]
  | c :: rest => by
      rw [flattenList, flattenList]
      rw [flattenNode_congr es₁ es₂ c lvl pid
        (fun m hm => h m (by simp [nodesOfList, hm]))]
      rw [flattenList_congr es₁ es₂ rest lvl pid
        (fun m hm => h m (by simp [nodesOfList, hm]))]
end

theorem lookupExp_eq_none_iff (m : List (String × Bool)) (i : String) :
    lookupExp m i = none ↔ ∀ p ∈ m, p.1 ≠ i := by
  induction m with
  | nil => simp [lookupExp]
  | cons p rest ih =>
      obtain ⟨k, v⟩ := p
      by_cases hk : k = i
      · subst hk
        simp [lookupExp]
      · simp [lookupExp, hk, ih]

theorem lookupExp_all_true (m : List (String × Bool)) (i : String)
    (h : ∀ p ∈ m, p.2 = true) :
    lookupExp m i = none ∨ lookupExp m i = some true := by
  induction m with
  | nil => simp [lookupExp]
  | cons p rest ih =>
      obtain ⟨k, v⟩ := p
      by_cases hk : k = i
      · subst hk
        right
        have hv : v = true := h (k, v) (by simp)
        simp [lookupExp, hv]
      · simp only [lookupExp, hk, if_false]
        exact ih fun q hq => h q (by simp [hq])

theorem lookup_parentsTrueMap (t m : Node) (hnd : (allIds t).Nodup)
    (hm : m ∈ nodesOf t) :
    lookupExp (parentsTrueMap t) m.id =
      if (resolvedChildren m).isEmpty then none else some true := by
  by_cases hc : (resolvedChildren m).isEmpty = true
  · rw [if_pos hc]
    apply (lookupExp_eq_none_iff (parentsTrueMap t) m.id).mpr
    intro p hp
    simp only [parentsTrueMap, List.mem_filterMap] at hp
    obtain ⟨m', hm', hp'⟩ := hp
    by_cases hc' : (resolvedChildren m').isEmpty = true
    · rw [if_pos hc'] at hp'
      exact absurd hp' (by simp)
    · rw [if_neg hc'] at hp'
      injection hp' with hp2
      subst hp2
      intro hid
      have heq : m' = m :=
        List.inj_on_of_nodup_map hnd hm' hm hid
      rw [heq] at hc'
      exact hc' hc
  · rw [if_neg hc]
    have hmem : (m.id, true) ∈ parentsTrueMap t := by
      simp only [parentsTrueMap, List.mem_filterMap]
      exact ⟨m, hm, by simp [hc]⟩
    have hall : ∀ p ∈ parentsTrueMap t, p.2 = true := by
      intro p hp
      simp only [parentsTrueMap, List.mem_filterMap] at hp
      obtain ⟨m', _, hp'⟩ := hp
      by_cases hc' : (resolvedChildren m').isEmpty = true
      · rw [if_pos hc'] at hp'
        exact absurd hp' (by simp)
      · rw [if_neg hc'] at hp'
        injection hp' with hp2
        subst hp2
        rfl
    rcases lookupExp_all_true (parentsTrueMap t) m.id hall with h0 | h1
    · exact absurd (fun p hp => (lookupExp_eq_none_iff _ _).mp h0 p hp)
        (by intro hno; exact hno (m.id, true) hmem rfl)
    · exact h1

theorem isExpandedIn_parentsTrueMap (t : Node) (hnd : (allIds t).Nodup) :
    ∀ m ∈ nodesOf t,
      isExpandedIn none m = isExpandedIn (some (parentsTrueMap t)) m := by
  intro m hm
  rw [isExpandedIn, isExpandedIn, lookup_parentsTrueMap t m hnd hm]
  by_cases hc : (resolvedChildren m).isEmpty = true
  · simp [hc]
  · simp [hc]

theorem lookup_setExp_self (m : List (String × Bool)) (i : String)
    (v : Bool) : lookupExp (setExp m i v) i = some v := by
  induction m with
  | nil => simp [setExp, lookupExp]
  | cons p rest ih =>
      obtain ⟨k, w⟩ := p
      by_cases hk : k = i
      · simp [setExp, hk, lookupExp]
      · simp [setExp, hk, lookupExp, ih]

theorem lookup_setExp_other (m : List (String × Bool)) (i j : String)
    (v : Bool) (h : j ≠ i) :
    lookupExp (setExp m i v) j = lookupExp m j := by
  induction m with
  | nil =>
      have hij : ¬(i = j) := fun hij => h hij.symm
      simp [setExp, lookupExp, hij]
  | cons p rest ih =>
      obtain ⟨k, w⟩ := p
      by_cases hk : k = i
      · have hij : ¬(i = j) := fun hij => h hij.symm
        simp [setExp, lookupExp, hk, hij]
      · simp only [setExp, hk, if_false, lookupExp]
        by_cases hkj : k = j
        · simp [hkj]
        · simp [hkj, ih]

mutual
theorem flattenNode_level_le (es : Option (List (String × Bool))) (n : Node)
    (lvl : Nat) (pid : Option String) :
    ∀ e ∈ flattenNode es n lvl pid, lvl ≤ e.level :=
  match n with
  | .mk i nm none => by
      intro e he
      simp only [flattenNode, List.mem_singleton] at he
      subst he
      simp [mkEntry]
  | .mk i nm (some l) => by
      intro e he
      rw [flattenNode] at he
      rcases List.mem_cons.mp he with rfl | he'
      · simp [mkEntry]
      · by_cases hexp : isExpandedIn es (.mk i nm (some l)) = true
        · rw [if_pos hexp] at he'
          exact Nat.le_of_succ_le
            (flattenList_level_le es l (lvl + 1) (some i) e he')
        · rw [if_neg hexp] at he'
          simp at he'

theorem flattenList_level_le (es : Option (List (String × Bool)))
    (ns : List Node) (lvl : Nat) (pid : Option String) :
    ∀ e ∈ flattenList es ns lvl pid, lvl ≤ e.level :=
  match ns with
  | [] => by intro e he; simp [flattenList] at he
  | c :: rest => by
      intro e he
      simp only [flattenList, List.mem_append] at he
      rcases he with he | he
      · exact flattenNode_level_le es c lvl pid e he
      · exact flattenList_level_le es rest lvl pid e he
end

mutual
theorem flattenNode_parent_at_level (es : Option (List (String × Bool)))
    (n : Node) (lvl : Nat) (pid : Option String) :
    ∀ e ∈ flattenNode es n lvl pid, e.level = lvl → e.parentId = pid :=
  match n with
  | .mk i nm none => by
      intro e he _
      simp only [flattenNode, List.mem_singleton] at he
      subst he
      rfl
  | .mk i nm (some l) => by
      intro e he hlvl
      rw [flattenNode] at he
      rcases List.mem_cons.mp he with rfl | he'
      · rfl
      · by_cases hexp : isExpandedIn es (.mk i nm (some l)) = true
        · rw [if_pos hexp] at he'
          have := flattenList_level_le es l (lvl + 1) (some i) e he'
          omega
        · rw [if_neg hexp] at he'
          simp at he'

theorem flattenList_parent_at_level (es : Option (List (String × Bool)))
    (ns : List Node) (lvl : Nat) (pid : Option String) :
    ∀ e ∈ flattenList es ns lvl pid, e.level = lvl → e.parentId = pid :=
  match ns with
  | [] => by intro e he; simp [flattenList] at he
  | c :: rest => by
      intro e he hlvl
      simp only [flattenList, List.mem_append] at he
      rcases he with he | he
      · exact flattenNode_parent_at_level es c lvl pid e he hlvl
      · exact flattenList_parent_at_level es rest lvl pid e he hlvl
end

mutual
theorem occsNode_anyMatch_false (term : String) (n : Node)
    (anc : List String) (lvl : Nat) (pid : Option String)
    (h : anyMatch term n = false) :
    ∀ q ∈ occsNode n anc lvl pid, anyMatch term q.node = false :=
  match n with
  | .mk i nm none => by
      intro q hq
      simp only [occsNode, List.mem_singleton] at hq
      subst hq
      exact h
  | .mk i nm (some l) => by
      intro q hq
      simp only [occsNode, List.mem_cons] at hq
      rcases hq with rfl | hq
      · exact h
      · have hl : anyMatchList term l = false := by
          rw [anyMatch] at h
          exact (Bool.or_eq_false_iff.mp h).2
        exact occsList_anyMatch_false term l (i :: anc) (lvl + 1) (some i)
          hl q hq

theorem occsList_anyMatch_false (term : String) (ns : List Node)
    (anc : List String) (lvl : Nat) (pid : Option String)
    (h : anyMatchList term ns = false) :
    ∀ q ∈ occsList ns anc lvl pid, anyMatch term q.node = false :=
  match ns with
  | [] => by intro q hq; simp [occsList] at hq
  | c :: rest => by
      intro q hq
      rw [anyMatchList] at h
      obtain ⟨h1, h2⟩ := Bool.or_eq_false_iff.mp h
      simp only [occsList, List.mem_append] at hq
      rcases hq with hq | hq
      · exact occsNode_anyMatch_false term c anc lvl pid h1 q hq
      · exact occsList_anyMatch_false term rest anc lvl pid h2 q hq
end

mutual
theorem searchFlattenNode_char (term : String) (n : Node)
    (anc : List String) (lvl : Nat) (pid : Option String) :
    searchFlattenNode term n lvl pid =
      ((occsNode n anc lvl pid).filter fun q => anyMatch term q.node).map
        fun q => mkSearchEntry term q.node q.level q.parentId :=
  match n with
  | .mk i nm none => by
      cases hm : anyMatch term (.mk i nm none) with
      | true => simp [searchFlattenNode, occsNode, List.filter_cons, hm]
      | false => simp [searchFlattenNode, occsNode, List.filter_cons, hm]
  | .mk i nm (some l) => by
      cases hm : anyMatch term (.mk i nm (some l)) with
      | true =>
          rw [searchFlattenNode]
          simp only [hm, if_true]
          rw [searchFlattenList_char term l (i :: anc) (lvl + 1) (some i)]
          simp [occsNode, List.filter_cons, hm]
      | false =>
          have hl : anyMatchList term l = false := by
            rw [anyMatch] at hm
            exact (Bool.or_eq_false_iff.mp hm).2
          have hnil :
              ((occsList l (i :: anc) (lvl + 1) (some i)).filter fun q =>
                anyMatch term q.node) = [] := by
            apply List.filter_eq_nil_iff.mpr
            intro q hq
            simp [occsList_anyMatch_false term l (i :: anc) (lvl + 1)
              (some i) hl q hq]
          rw [searchFlattenNode]
          simp [occsNode, List.filter_cons, hm, hnil]

theorem searchFlattenList_char (term : String) (ns : List Node)
    (anc : List String) (lvl : Nat) (pid : Option String) :
    searchFlattenList term ns lvl pid =
      ((occsList ns anc lvl pid).filter fun q => anyMatch term q.node).map
        fun q => mkSearchEntry term q.node q.level q.parentId :=
  match ns with
  | [] => by simp [searchFlattenList, occsList]
  | c :: rest => by
      rw [searchFlattenList, occsList, List.filter_append, List.map_append,
        searchFlattenNode_char term c anc lvl pid,
        searchFlattenList_char term rest anc lvl pid]
end

theorem lookupCache_eq_none_iff (c : List (String × List Node))
    (i : String) : lookupCache c i = none ↔ ∀ p ∈ c, p.1 ≠ i := by
  induction c with
  | nil => simp [lookupCache]
  | cons p rest ih =>
      obtain ⟨k, v⟩ := p
      by_cases hk : k = i
      · subst hk
        simp [lookupCache]
      · simp [lookupCache, hk, ih]

theorem lookupCache_none_of_suffix (c d : List (String × List Node))
    (i : String) (hs : c <:+ d) (h : lookupCache d i = none) :
    lookupCache c i = none := by
  rw [lookupCache_eq_none_iff] at h ⊢
  exact fun p hp => h p (hs.subset hp)

mutual
theorem cacheWalkNode_suffix (sf : List Node → List Node)
    (es : Option (List (String × Bool))) (term : String) (n : Node)
    (c : List (String × List Node)) :
    c <:+ (cacheWalkNode sf es term n c).1 :=
  match n with
  | .mk i nm none => by
      cases hcc : lookupCache c i with
      | some v => simp [cacheWalkNode, hcc]
      | none =>
          simp only [cacheWalkNode, hcc]
          exact List.suffix_cons _ _
  | .mk i nm (some l) => by
      cases hcc : lookupCache c i with
      | some v =>
          simp only [cacheWalkNode, hcc]
          by_cases hgo :
              (if term = "" then isExpandedIn es (.mk i nm (some l))
               else true) = true
          · simp only [hgo, if_true]
            exact cacheWalkList_suffix sf es term l c
          · simp [hgo]
      | none =>
          simp only [cacheWalkNode, hcc]
          by_cases hgo :
              (if term = "" then isExpandedIn es (.mk i nm (some l))
               else true) = true
          · simp only [hgo, if_true]
            exact (List.suffix_cons (i, sf l) c).trans
              (cacheWalkList_suffix sf es term l ((i, sf l) :: c))
          · simp only [hgo, if_false]
            exact List.suffix_cons _ _

theorem cacheWalkList_suffix (sf : List Node → List Node)
    (es : Option (List (String × Bool))) (term : String) (ns : List Node)
    (c : List (String × List Node)) :
    c <:+ (cacheWalkList sf es term ns c).1 :=
  match ns with
  | [] => by simp [cacheWalkList]
  | m :: rest => by
      rw [cacheWalkList]
      exact (cacheWalkNode_suffix sf es term m c).trans
        (cacheWalkList_suffix sf es term rest
          (cacheWalkNode sf es term m c).1)
end

mutual
theorem cacheWalkNode_miss (sf : List Node → List Node)
    (es : Option (List (String × Bool))) (term : String) (n : Node)
    (c : List (String × List Node)) :
    ∀ j ∈ (cacheWalkNode sf es term n c).2, lookupCache c j = none :=
  match n with
  | .mk i nm none => by
      intro j hj
      cases hcc : lookupCache c i with
      | some v => simp [cacheWalkNode, hcc] at hj
      | none =>
          simp only [cacheWalkNode, hcc, List.mem_singleton] at hj
          subst hj
          exact hcc
  | .mk i nm (some l) => by
      intro j hj
      cases hcc : lookupCache c i with
      | some v =>
          simp only [cacheWalkNode, hcc] at hj
          by_cases hgo :
              (if term = "" then isExpandedIn es (.mk i nm (some l))
               else true) = true
          · simp only [hgo, if_true, List.nil_append] at hj
            exact cacheWalkList_miss sf es term l c j hj
          · simp [hgo] at hj
      | none =>
          simp only [cacheWalkNode, hcc] at hj
          by_cases hgo :
              (if term = "" then isExpandedIn es (.mk i nm (some l))
               else true) = true
          · simp only [hgo, if_true, List.cons_append, List.nil_append,
              List.mem_cons] at hj
            rcases hj with rfl | hj
            · exact hcc
            · have hnone := cacheWalkList_miss sf es term l
                ((i, sf l) :: c) j hj
              exact lookupCache_none_of_suffix c ((i, sf l) :: c) j
                (List.suffix_cons _ _) hnone
          · simp only [hgo, Bool.false_eq_true, if_false,
              List.mem_singleton] at hj
            subst hj
            exact hcc

theorem cacheWalkList_miss (sf : List Node → List Node)
    (es : Option (List (String × Bool))) (term : String) (ns : List Node)
    (c : List (String × List Node)) :
    ∀ j ∈ (cacheWalkList sf es term ns c).2, lookupCache c j = none :=
  match ns with
  | [] => by intro j hj; simp [cacheWalkList] at hj
  | m :: rest => by
      intro j hj
      rw [cacheWalkList] at hj
      simp only [List.mem_append] at hj
      rcases hj with hj | hj
      · exact cacheWalkNode_miss sf es term m c j hj
      · have hnone := cacheWalkList_miss sf es term rest
          (cacheWalkNode sf es term m c).1 j hj
        exact lookupCache_none_of_suffix c
          (cacheWalkNode sf es term m c).1 j
          (cacheWalkNode_suffix sf es term m c) hnone
end

theorem buildVisibleList_default (es : Option (List (String × Bool)))
    (t : Node) :
    buildVisibleList { expandedState := es } t = flattenNode es t 0 none :=
  rfl

theorem buildVisibleList_noRoot (es : Option (List (String × Bool)))
    (t : Node) :
    buildVisibleList { expandedState := es, showRoot := false } t =
      flattenList es (resolvedChildren t) 0 (some t.id) := rfl

theorem buildVisibleList_search (es : Option (List (String × Bool)))
    (term : String) (t : Node) (h : term ≠ "") :
    buildVisibleList { expandedState := es, searchTerm := term } t =
      searchFlattenNode term t 0 none := by
  rw [buildVisibleList]
  simp [h]

theorem mem_nodesOfList_resolved (t : Node) :
    ∀ m ∈ nodesOfList (resolvedChildren t), m ∈ nodesOf t := by
  intro m hm
  match t with
  | .mk i nm none =>
      simp [resolvedChildren, getChildren, nodesOfList] at hm
  | .mk i nm (some l) =>
      simp only [resolvedChildren_mk, Option.getD_some] at hm
      simp [nodesOf, hm]

theorem children_id_ne (t : Node) (hnd : (allIds t).Nodup) :
    ∀ m ∈ nodesOfList (resolvedChildren t), m.id ≠ t.id := by
  intro m hm
  match t with
  | .mk i nm none =>
      simp [resolvedChildren, getChildren, nodesOfList] at hm
  | .mk i nm (some l) =>
      simp only [resolvedChildren_mk, Option.getD_some] at hm
      simp only [allIds, nodesOf, List.map_cons, List.nodup_cons,
        id_mk] at hnd
      intro hid
      simp only [id_mk] at hid
      apply hnd.1
      rw [← hid]
      exact List.mem_map_of_mem Node.id hm

theorem anyMatch_of_children (term : String) (n : Node)
    (h : anyMatchList term (resolvedChildren n) = true) :
    anyMatch term n = true := by
  match n with
  | .mk i nm none =>
      simp [resolvedChildren, getChildren, anyMatchList] at h
  | .mk i nm (some l) =>
      simp only [resolvedChildren_mk, Option.getD_some] at h
      simp [anyMatch, h]

theorem build_showRoot_static (t : Node) :
    buildVisibleList { expandedState := none, showRoot := true } t =
      mkEntry none t 0 none ::
        (buildVisibleList { expandedState := none, showRoot := false }
            t).map incLevel := by
  rw [show buildVisibleList { expandedState := none, showRoot := true } t =
      flattenNode none t 0 none from rfl,
    buildVisibleList_noRoot]
  match t with
  | .mk i nm none =>
      simp [flattenNode, resolvedChildren, getChildren, flattenList]
  | .mk i nm (some l) =>
      rw [flattenNode]
      by_cases hexp : isExpandedIn none (.mk i nm (some l)) = true
      · have hl : ¬l.isEmpty := by
          simpa [isExpandedIn] using hexp
        rw [if_pos hexp]
        simp only [resolvedChildren_mk, Option.getD_some]
        rw [show (0 : Nat) + 1 = 1 from rfl] at *
        rw [show flattenList none l 1 (some i) =
            flattenList none l (0 + 1) (some i) from rfl,
          flattenList_shift none l 0 (some i)]
        rfl
      · have hl : l = [] := by
          simp only [isExpandedIn, resolvedChildren_mk, Option.getD_some,
            Bool.not_eq_true'] at hexp
          simpa using hexp
        subst hl
        simp [hexp, flattenList]

/-- C1: for every tree and expansion map the visible list contains a node
occurrence iff every ancestor of it (other than a hidden root) is mapped to
`true` (or static always-expanded mode is active): the emitted id sequence
equals the pre-order occurrence sequence filtered to occurrences whose
ancestors are all expanded (ancestors of the hidden root's children are
checked without the root).  Concretely, on the test tree with
`expandedState = (root true)` the list has length 3 with ids root, folder,
folder2, and with `folder2` also `true` it has length 4 ending in
nestedItem. -/
theorem claim_C1_visibility :
    (∀ (es : Option (List (String × Bool))) (t : Node),
      (buildVisibleList { expandedState := es } t).map Entry.id =
        ((occsNode t [] 0 none).filter fun q =>
            ancSatisfied es q.ancs).map fun q => q.node.id) ∧
    (∀ (es : Option (List (String × Bool))) (t : Node),
      (buildVisibleList { expandedState := es, showRoot := false } t).map
          Entry.id =
        ((occsList (resolvedChildren t) [] 0 (some t.id)).filter fun q =>
            ancSatisfied es q.ancs).map fun q => q.node.id) ∧
    (buildVisibleList { expandedState := some [("root", true)] }
        treeData).map Entry.id = ["root", "folder", "folder2"] ∧
    (buildVisibleList { expandedState := some [("root", true)] }
        treeData).length = 3 ∧
    (buildVisibleList
        { expandedState := some [("root", true), ("folder2", true)] }
        treeData).map Entry.id =
      ["root", "folder", "folder2", "nestedItem"] ∧
    (buildVisibleList
        { expandedState := some [("root", true), ("folder2", true)] }
        treeData).length = 4 := by
  refine ⟨?_, ?_, by decide, by decide, by decide, by decide⟩
  · intro es t
    rw [buildVisibleList_default,
      flattenNode_char es t [] 0 none (by simp), List.map_map]
    rfl
  · intro es t
    rw [buildVisibleList_noRoot,
      flattenList_char es (resolvedChildren t) [] 0 (some t.id) (by simp),
      List.map_map]
    rfl

/-- C2: omitting `expandedState` entirely produces exactly the same visible
list as supplying an expansion map that sends every parent id to `true`,
for any tree satisfying the data-model invariant that node ids are
pairwise distinct (§3), with or without the root shown. -/
theorem claim_C2_static_mode (t : Node) (sr : Bool)
    (hnd : (allIds t).Nodup) :
    buildVisibleList { expandedState := none, showRoot := sr } t =
      buildVisibleList
        { expandedState := some (parentsTrueMap t), showRoot := sr } t := by
  have hpt := isExpandedIn_parentsTrueMap t hnd
  cases sr
  · rw [buildVisibleList_noRoot, buildVisibleList_noRoot]
    exact flattenList_congr none (some (parentsTrueMap t))
      (resolvedChildren t) 0 (some t.id)
      fun m hm => hpt m (mem_nodesOfList_resolved t m hm)
  · rw [show buildVisibleList { expandedState := none, showRoot := true } t
        = flattenNode none t 0 none from rfl,
      show buildVisibleList
          { expandedState := some (parentsTrueMap t), showRoot := true } t
        = flattenNode (some (parentsTrueMap t)) t 0 none from rfl]
    exact flattenNode_congr none (some (parentsTrueMap t)) t 0 none hpt

/-- Witness for C2 at the test tree, whose ids are pairwise distinct. -/
theorem claim_C2_static_mode_witness :
    (allIds treeData).Nodup ∧
      buildVisibleList { expandedState := none, showRoot := true }
          treeData =
        buildVisibleList
          { expandedState := some (parentsTrueMap treeData),
            showRoot := true } treeData :=
  ⟨by decide, claim_C2_static_mode treeData true (by decide)⟩

/-- C5: for every emitted node, `hasChildren` is exactly the nonemptiness
of the accessor-resolved children list of the corresponding occurrence's
node; concretely, a node whose `children` field is present but empty is
reported childless. -/
theorem claim_C5_hasChildren :
    (∀ (es : Option (List (String × Bool))) (t : Node),
      (buildVisibleList { expandedState := es } t).map Entry.hasChildren =
        ((occsNode t [] 0 none).filter fun q =>
            ancSatisfied es q.ancs).map
          fun q => !(resolvedChildren q.node).isEmpty) ∧
    (∀ (es : Option (List (String × Bool))) (t : Node),
      (buildVisibleList { expandedState := es, showRoot := false } t).map
          Entry.hasChildren =
        ((occsList (resolvedChildren t) [] 0 (some t.id)).filter fun q =>
            ancSatisfied es q.ancs).map
          fun q => !(resolvedChildren q.node).isEmpty) ∧
    (buildVisibleList { expandedState := none } treeWithEmpty).map
        (fun e => (e.id, e.hasChildren)) =
      [("root2", true), ("emptyFolder", false)] := by
  refine ⟨?_, ?_, by decide⟩
  · intro es t
    rw [buildVisibleList_default,
      flattenNode_char es t [] 0 none (by simp), List.map_map]
    rfl
  · intro es t
    rw [buildVisibleList_noRoot,
      flattenList_char es (resolvedChildren t) [] 0 (some t.id) (by simp),
      List.map_map]
    rfl

/-- C3, counterexample: with the fully-expanded (static) configuration on
the test tree, the `showRoot: false` list is not the `showRoot: true` list
minus its root entry: the remaining entries differ, because their levels
are shifted down by one (the first entry, folder, is emitted at level 0,
while in the rooted list it sits at level 1). -/
theorem claim_C3_counterexample :
    buildVisibleList { expandedState := none, showRoot := false }
        treeData ≠
      (buildVisibleList { expandedState := none, showRoot := true }
          treeData).drop 1 := by decide

/-- C3, amended: `showRoot: false` removes the root entry from the
otherwise-identical fully-expanded list with every remaining entry's level
decreased by one (ids, names, order, `parentId`, `hasChildren` and
`isExpanded` unchanged); the root's subtree is walked regardless of the
root's expansion-map entry (for trees with pairwise-distinct ids, the map's
entry at the root id is never consulted); and the root's direct children —
the level-0 entries — still carry the root's id as `parentId`. -/
theorem claim_C3_amended :
    (∀ t : Node,
      buildVisibleList { expandedState := none, showRoot := true } t =
        mkEntry none t 0 none ::
          (buildVisibleList { expandedState := none, showRoot := false }
              t).map incLevel) ∧
    (∀ (t : Node) (m₁ m₂ : List (String × Bool)),
      (allIds t).Nodup →
      (∀ j, j ≠ t.id → lookupExp m₁ j = lookupExp m₂ j) →
      buildVisibleList { expandedState := some m₁, showRoot := false } t =
        buildVisibleList { expandedState := some m₂, showRoot := false }
          t) ∧
    (∀ (es : Option (List (String × Bool))) (t : Node) (e : Entry),
      e ∈ buildVisibleList { expandedState := es, showRoot := false } t →
      e.level = 0 → e.parentId = some t.id) := by
  refine ⟨build_showRoot_static, ?_, ?_⟩
  · intro t m₁ m₂ hnd hagree
    rw [buildVisibleList_noRoot, buildVisibleList_noRoot]
    apply flattenList_congr (some m₁) (some m₂) (resolvedChildren t) 0
      (some t.id)
    intro m hm
    have hne := children_id_ne t hnd m hm
    simp only [isExpandedIn]
    rw [hagree m.id hne]
  · intro es t e he hlvl
    rw [buildVisibleList_noRoot] at he
    exact flattenList_parent_at_level es (resolvedChildren t) 0
      (some t.id) e he hlvl

/-- Witness for C3's amended theorem: on the test tree, flipping the map's
entry for the root does not change the rootless list, and the level-0 entry
for folder carries the root's id as `parentId`. -/
theorem claim_C3_amended_witness :
    (buildVisibleList
        { expandedState := some [("root", true)], showRoot := false }
        treeData =
      buildVisibleList
        { expandedState := some [("root", false)], showRoot := false }
        treeData) ∧
    (mkEntry none folderNode 0 (some "root") ∈
        buildVisibleList { expandedState := none, showRoot := false }
          treeData) ∧
    (mkEntry none folderNode 0 (some "root")).parentId =
      some treeData.id := by
  refine ⟨?_, by decide, ?_⟩
  · apply claim_C3_amended.2.1 treeData [("root", true)] [("root", false)]
      (by decide)
    intro j hj
    have hrj : ¬("root" = j) := fun h => hj h.symm
    simp [lookupExp, hrj]
  · exact claim_C3_amended.2.2 none treeData
      (mkEntry none folderNode 0 (some "root")) (by decide) (by decide)

/-- C4, counterexample: with `showRoot: false` on the test tree the first
emitted entry — the root's direct child folder — has level 0, not level 1
as the claim's showRoot-independence would require. -/
theorem claim_C4_counterexample :
    ((buildVisibleList { expandedState := none, showRoot := false }
          treeData).head?.map Entry.level) = some 0 ∧
      ((buildVisibleList { expandedState := none, showRoot := false }
          treeData).head?.map Entry.level) ≠ some 1 := by decide

/-- C4, amended: every emitted entry's level counts its ancestors within
the shown region: with the root shown, the root is at level 0 and each
child sits at its parent's level plus one (level = depth); with
`showRoot: false` the root's direct children are emitted at level 0 and
levels below them again grow by one per step (level = depth minus one).
Concretely, the rootless static list of the test tree has levels
0, 0, 1. -/
theorem claim_C4_amended :
    (∀ (es : Option (List (String × Bool))) (t : Node),
      (buildVisibleList { expandedState := es } t).map Entry.level =
        ((occsNode t [] 0 none).filter fun q =>
            ancSatisfied es q.ancs).map fun q => q.ancs.length) ∧
    (∀ (es : Option (List (String × Bool))) (t : Node),
      (buildVisibleList { expandedState := es, showRoot := false } t).map
          Entry.level =
        ((occsList (resolvedChildren t) [] 0 (some t.id)).filter fun q =>
            ancSatisfied es q.ancs).map fun q => q.ancs.length) ∧
    (buildVisibleList { expandedState := none, showRoot := false }
        treeData).map Entry.level = [0, 0, 1] := by
  refine ⟨?_, ?_, by decide⟩
  · intro es t
    rw [buildVisibleList_default,
      flattenNode_char es t [] 0 none (by simp), List.map_map]
    apply List.map_congr_left
    intro q hq
    exact (occsNode_level t [] 0 none rfl q
      (List.mem_of_mem_filter hq)).symm
  · intro es t
    rw [buildVisibleList_noRoot,
      flattenList_char es (resolvedChildren t) [] 0 (some t.id) (by simp),
      List.map_map]
    apply List.map_congr_left
    intro q hq
    exact (occsList_level (resolvedChildren t) [] 0 (some t.id) rfl q
      (List.mem_of_mem_filter hq)).symm

/-- C6: with a non-empty search term, (1) the expansion map is bypassed
entirely (the visible list is independent of it), (2) the visible list is
exactly the pre-order occurrence sequence filtered to nodes that match the
term or have a matching descendant, (3) every force-included ancestor of a
match is in the list and reports `isExpanded` as `true`, and (4) on the
test tree with term "Two" the list has exactly length 2 with ids root and
folder2. -/
theorem claim_C6_search :
    (∀ (es₁ es₂ : Option (List (String × Bool))) (sr : Bool)
        (term : String) (t : Node), term ≠ "" →
      buildVisibleList
          { expandedState := es₁, showRoot := sr, searchTerm := term } t =
        buildVisibleList
          { expandedState := es₂, showRoot := sr, searchTerm := term }
          t) ∧
    (∀ (es : Option (List (String × Bool))) (term : String) (t : Node),
      term ≠ "" →
      buildVisibleList { expandedState := es, searchTerm := term } t =
        ((occsNode t [] 0 none).filter fun q =>
            anyMatch term q.node).map
          fun q => mkSearchEntry term q.node q.level q.parentId) ∧
    (∀ (es : Option (List (String × Bool))) (term : String) (t : Node)
        (q : Occ), term ≠ "" →
      q ∈ occsNode t [] 0 none →
      anyMatchList term (resolvedChildren q.node) = true →
      mkSearchEntry term q.node q.level q.parentId ∈
          buildVisibleList { expandedState := es, searchTerm := term } t ∧
        (mkSearchEntry term q.node q.level q.parentId).isExpanded =
          true) ∧
    ((buildVisibleList { searchTerm := "Two" } treeData).map Entry.id =
        ["root", "folder2"] ∧
      (buildVisibleList { searchTerm := "Two" } treeData).length = 2) := by
  have hchar : ∀ (es : Option (List (String × Bool))) (term : String)
      (t : Node), term ≠ "" →
      buildVisibleList { expandedState := es, searchTerm := term } t =
        ((occsNode t [] 0 none).filter fun q =>
            anyMatch term q.node).map
          fun q => mkSearchEntry term q.node q.level q.parentId := by
    intro es term t h
    rw [buildVisibleList_search es term t h,
      searchFlattenNode_char term t [] 0 none]
  refine ⟨?_, hchar, ?_, by decide, by decide⟩
  · intro es₁ es₂ sr term t h
    rw [buildVisibleList]
    rw [buildVisibleList]
    simp [h]
  · intro es term t q h hq hmatch
    constructor
    · rw [hchar es term t h]
      exact List.mem_map_of_mem _
        (List.mem_filter.mpr
          ⟨hq, anyMatch_of_children term q.node hmatch⟩)
    · exact hmatch

/-- Witness for C6 at the test tree: the term "Two" is non-empty, and the
searched list ignores the expansion map. -/
theorem claim_C6_search_witness :
    buildVisibleList
        { expandedState := some [("root", true)], searchTerm := "Two" }
        treeData =
      buildVisibleList { expandedState := none, searchTerm := "Two" }
        treeData :=
  claim_C6_search.1 (some [("root", true)]) none true "Two" treeData
    (by decide)

/-- C7: with `onSelection` omitted, `select()` fails with a
`MissingCallbackError` naming `onSelection`; with `onExpandedStateChange`
omitted, `toggleExpanded()` fails with a `MissingCallbackError` naming
`onExpandedStateChange`; and the errors are raised only at invocation,
never at build time: the visible list is independent of whether either
callback was supplied. -/
theorem claim_C7_missing_callbacks :
    (∀ n : Node, select false n = .error ⟨"onSelection"⟩) ∧
    (∀ (es : Option (List (String × Bool))) (i : String),
      toggleExpanded es false i = .error ⟨"onExpandedStateChange"⟩) ∧
    (∀ (opts : TreeOptions) (t : Node) (b₁ b₂ : Bool),
      buildVisibleList
          { opts with
              hasOnSelection := b₁
              hasOnExpandedStateChange := b₂ } t =
        buildVisibleList opts t) := by
  refine ⟨fun n => rfl, fun es i => rfl, ?_⟩
  intro opts t b₁ b₂
  cases opts
  rfl

/-- C8: for every visible node (with an expansion map supplied and the
change callback present), `toggleExpanded()` invokes the callback with the
complete new map: the current map with that node's entry flipped, an absent
entry defaulting to `false` before the flip (so the first toggle of a node
expands it), every other entry unchanged. -/
theorem claim_C8_toggle (opts : TreeOptions) (t : Node)
    (m : List (String × Bool)) (e : Entry)
    (hes : opts.expandedState = some m)
    (_hmem : e ∈ buildVisibleList opts t) :
    toggleExpanded opts.expandedState true e.id =
        .ok (some (setExp m e.id (!(lookupExp m e.id).getD false))) ∧
      lookupExp (setExp m e.id (!(lookupExp m e.id).getD false)) e.id =
        some (!(lookupExp m e.id).getD false) ∧
      (∀ j, j ≠ e.id →
        lookupExp (setExp m e.id (!(lookupExp m e.id).getD false)) j =
          lookupExp m j) ∧
      (lookupExp m e.id = none →
        lookupExp (setExp m e.id (!(lookupExp m e.id).getD false)) e.id =
          some true) := by
  refine ⟨by rw [hes]; rfl, lookup_setExp_self m e.id _, ?_, ?_⟩
  · intro j hj
    exact lookup_setExp_other m e.id j _ hj
  · intro h0
    rw [h0]
    simpa using lookup_setExp_self m e.id true

/-- Witness for C8: toggling the collapsed folder2 entry of the test tree
produces the map with folder2 flipped to `true` (a first toggle expands). -/
theorem claim_C8_toggle_witness :
    (mkEntry (some [("root", true)]) folder2Node 1 (some "root") ∈
        buildVisibleList { expandedState := some [("root", true)] }
          treeData) ∧
      toggleExpanded (some [("root", true)]) true "folder2" =
        .ok (some [("root", true), ("folder2", true)]) := by
  refine ⟨by decide, ?_⟩
  have h := claim_C8_toggle { expandedState := some [("root", true)] }
    treeData [("root", true)]
    (mkEntry (some [("root", true)]) folder2Node 1 (some "root")) rfl
    (by decide)
  exact h.1

/-- C9: re-flattening with the same data and the same sort comparator but a
changed expansion map or search term invokes `getChildren`/`childSort` only
for ids with no existing cache entry: every id in the second pass's
invocation log misses the cache produced by the first pass. -/
theorem claim_C9_cache (sf : List Node → List Node) (t : Node)
    (es₁ es₂ : Option (List (String × Bool))) (term₁ term₂ : String)
    (c₀ : List (String × List Node)) :
    ∀ j ∈ (cacheWalkNode sf es₂ term₂ t
        (cacheWalkNode sf es₁ term₁ t c₀).1).2,
      lookupCache (cacheWalkNode sf es₁ term₁ t c₀).1 j = none :=
  cacheWalkNode_miss sf es₂ term₂ t (cacheWalkNode sf es₁ term₁ t c₀).1

/-- Witness for C9: on the test tree, expanding folder2 in the second pass
invokes the accessor only for nestedItem, which the first pass's cache does
not hold. -/
theorem claim_C9_cache_witness :
    ("nestedItem" ∈ (cacheWalkNode (fun l => l)
        (some [("root", true), ("folder2", true)]) "" treeData
        (cacheWalkNode (fun l => l) (some [("root", true)]) "" treeData
          []).1).2) ∧
      lookupCache (cacheWalkNode (fun l => l) (some [("root", true)]) ""
          treeData []).1 "nestedItem" = none :=
  ⟨by decide,
    claim_C9_cache (fun l => l) treeData (some [("root", true)])
      (some [("root", true), ("folder2", true)]) "" "" [] "nestedItem"
      (by decide)⟩

/-- C10: with `expandedState` omitted (static always-expanded mode),
calling `toggleExpanded()` on a visible node neither invokes the supplied
`onExpandedStateChange` callback (the result carries no new map) nor raises
an error. -/
theorem claim_C10_static_toggle (opts : TreeOptions) (t : Node)
    (e : Entry) (hes : opts.expandedState = none)
    (_hmem : e ∈ buildVisibleList opts t) :
    toggleExpanded opts.expandedState true e.id = .ok none := by
  rw [hes]
  rfl

/-- Witness for C10 at the test tree: toggling folder2 in static mode
returns without a callback invocation and without an error. -/
theorem claim_C10_static_toggle_witness :
    (mkEntry none folder2Node 1 (some "root") ∈
        buildVisibleList {} treeData) ∧
      toggleExpanded none true "folder2" = .ok none :=
  ⟨by decide,
    claim_C10_static_toggle {} treeData
      (mkEntry none folder2Node 1 (some "root")) rfl (by decide)⟩

end Nutrea
